import Mathlib

/-!
Verification development for the dynamic-quantum-circuit compilation repository.

The central artifact is a shallow embedding of the DCKF reuse planner from
`examples/numerical experiments/DCKF_reimplementation.py`, together with
embeddings of the noise constructors (`quantum/noise.py`), the noise-insertion
pass of `examples/numerical experiments/noisy_simulation_BV_11.py`, and the
Bernstein-Vazirani nilpotency experiment
(`examples/analytic results/Bernstein_Vazirani_algorithm.py`).

Modelling conventions:
* Python lists become Lean `List`s; Python `None`-able register cells become
  `Option Nat`.
* Python sets of small non-negative integers (the causal cones, the set of
  unmeasured qubits) iterate in ascending numeric order in CPython, because
  `hash n = n` places the elements in ascending slots of the hash table and
  deletions never reorder the survivors.  The embedding therefore represents
  such a set as a `Finset Nat` and iterates over its ascending sorted list.
* Machine integers are `Nat` (all quantities involved are small non-negative
  counters and indices; no overflow is reachable).
* Operations that would raise in Python (indexing an empty selection) are
  totalised with an explicit default; the run invariants proved below show the
  defaults are never exercised on the planner's reachable states.
-/

namespace DQC

/-- A reuse edge, a pair of DAG node identifiers
`(terminals[m], roots[q])` as appended by `_manage_qubit_reuse`. -/
abbrev Edge := Nat × Nat

/-- The register-management state threaded through `_manage_qubit_reuse`:
the quantum register `q_register` (cell value = hosted logical qubit, `none` =
free cell), the per-cell occupation history `reg_occupation`, and the list of
emitted reuse edges `edge_addition`. -/
structure MState where
  qreg : List (Option Nat)
  occ : List (List Nat)
  edges : List Edge
deriving Repr, DecidableEq

/-- Index of the first free register cell:
`[i for i in range(len(q_register)) if q_register[i] is None][0]` (as an
`Option`, `none` when every cell is occupied). -/
def firstFree (qreg : List (Option Nat)) : Option Nat :=
  qreg.findIdx? Option.isNone

/-- Embedding of `_manage_qubit_reuse` (DCKF_reimplementation.py, lines
43-58).  If `q` is already resident nothing happens; otherwise `q` is loaded
into the first free cell (emitting the reuse edge
`(terminals[last occupant], roots[q])`) or, when no cell is free, into a
freshly appended cell.  `rs`/`ts` are the circuit's `roots`/`terminals`
maps from wire index to DAG node. -/
def manage (rs ts : Nat → Nat) (s : MState) (q : Nat) : MState :=
  if some q ∈ s.qreg then s
  else
    match firstFree s.qreg with
    | some dyn =>
        let prev := (s.occ.getD dyn []).getLastD 0
        { qreg := s.qreg.set dyn (some q)
          occ := s.occ.set dyn ((s.occ.getD dyn []) ++ [q])
          edges := s.edges ++ [(ts prev, rs q)] }
    | none =>
        { qreg := s.qreg ++ [some q]
          occ := s.occ ++ [[q]]
          edges := s.edges }

/-- The activation loop `for q in activated_qubits: ... _manage_qubit_reuse`. -/
def activate (rs ts : Nat → Nat) (s : MState) (qs : List Nat) : MState :=
  qs.foldl (manage rs ts) s

/-- Recycling the cell of a measured qubit:
`measured_address = [i for i in range(len(qreg)) if qreg[i] == q][0];
qreg[measured_address] = None`.  (When `q` is not resident the Python code
raises `IndexError`; the invariants below show this is unreachable, and the
embedding leaves the register unchanged in that case.) -/
def recycle (qreg : List (Option Nat)) (q : Nat) : List (Option Nat) :=
  match qreg.findIdx? (fun x => decide (x = some q)) with
  | some i => qreg.set i none
  | none => qreg

/-- Full planner state of `_construct_measurement_order_by_greedy`:
`measurement_order`, `unmeasured_qubits` (kept as the ascending list the
Python set iterates as), `measured_causal_cone`, and the register state. -/
structure PState where
  order : List Nat
  unmeasured : List Nat
  mcone : Finset Nat
  ms : MState
deriving DecidableEq

/-- Ascending iteration order of a CPython set of small naturals. -/
def sortedCone (c : Finset Nat) : List Nat := c.sort (· ≤ ·)

/-- One measurement event: activate every unmeasured qubit of `cones q`
(`all_causal_cones[q].difference(set(measurement_order))`), recycle the cell
hosting `q`, and update `measurement_order`, `measured_causal_cone` and
`unmeasured_qubits`.  The first measurement of the run is the same event
starting from the empty order, where the set difference is trivial. -/
def measureQ (cones : Nat → Finset Nat) (rs ts : Nat → Nat)
    (s : PState) (q : Nat) : PState :=
  let acts := sortedCone (cones q \ s.order.toFinset)
  let ms1 := activate rs ts s.ms acts
  { order := s.order ++ [q]
    unmeasured := s.unmeasured.erase q
    mcone := s.mcone ∪ cones q
    ms := { ms1 with qreg := recycle ms1.qreg q } }

/-- One step of the scan
`for qubit in unmeasured_qubits: if len(union) <= union_size: ...`:
the accumulator holds `(next_to_measure, union_size)`. -/
def selStep (cones : Nat → Finset Nat) (mcone : Finset Nat)
    (acc : Option Nat × Nat) (q : Nat) : Option Nat × Nat :=
  let u := (mcone ∪ cones q).card
  if u ≤ acc.2 then (some q, u) else acc

/-- The selection of the next qubit to measure (DCKF_reimplementation.py,
lines 93-100): scan the unmeasured qubits in ascending order starting from
`(None, original_circuit_width)`. -/
def selectNext (cones : Nat → Finset Nat) (w : Nat) (mcone : Finset Nat)
    (unmeasured : List Nat) : Option Nat × Nat :=
  unmeasured.foldl (selStep cones mcone) (none, w)

/-- One iteration of the greedy `while` loop. -/
def greedyStep (cones : Nat → Finset Nat) (rs ts : Nat → Nat) (w : Nat)
    (s : PState) : PState :=
  match (selectNext cones w s.mcone s.unmeasured).1 with
  | some q => measureQ cones rs ts s q
  | none => s

/-- `iter f n` applies `f` `n` times. -/
def iter (f : α → α) : Nat → α → α
  | 0, s => s
  | n + 1, s => iter f n (f s)

/-- Initial planner state. -/
def initState (w : Nat) : PState :=
  { order := [], unmeasured := List.range w, mcone := ∅,
    ms := { qreg := [], occ := [], edges := [] } }

/-- Embedding of `_construct_measurement_order_by_greedy` for a given first
measured qubit: the first measurement event followed by the greedy `while`
loop, which performs exactly `w - 1` further measurements (its guard
`len(measurement_order) != w` becomes false after them). -/
def greedyRun (cones : Nat → Finset Nat) (rs ts : Nat → Nat)
    (w fq : Nat) : PState :=
  iter (greedyStep cones rs ts w) (w - 1)
    (measureQ cones rs ts (initState w) fq)

/-- The value `_construct_measurement_order_by_greedy` actually returns:
only the `edge_addition` list. -/
def greedyEdges (cones : Nat → Finset Nat) (rs ts : Nat → Nat)
    (w fq : Nat) : List Edge :=
  (greedyRun cones rs ts w fq).ms.edges

/-- The brute-force search branch of `reduce_by_dckf`
(`first_qubit_search=True`): try every first qubit in ascending order and keep
an edge list only when it is strictly longer than the incumbent. -/
def dckfSearch (cones : Nat → Finset Nat) (rs ts : Nat → Nat)
    (w : Nat) : List Edge :=
  (List.range w).foldl
    (fun best fq =>
      let e := greedyEdges cones rs ts w fq
      if best.length < e.length then e else best)
    []

/-- `numpy.argmin` on a list of naturals: the index of the first occurrence of
the minimum (auxiliary recursion carrying best value, best index, current
index). -/
def argminAux : List Nat → Nat → Nat → Nat → Nat
  | [], _, bi, _ => bi
  | x :: xs, bv, bi, i =>
      if x < bv then argminAux xs x i (i + 1) else argminAux xs bv bi (i + 1)

/-- `numpy.argmin` (0 on the empty list, which numpy rejects). -/
def argminFirst : List Nat → Nat
  | [] => 0
  | x :: xs => argminAux xs x 0 1

/-- The sum of column `q` of a `w × w` matrix. -/
def colSum (B : Nat → Nat → Nat) (w q : Nat) : Nat :=
  ∑ i ∈ Finset.range w, B i q

/-- Column sums `numpy.sum(biadjacency_matrix, axis=0)` of a `w × w` matrix. -/
def colSums (B : Nat → Nat → Nat) (w : Nat) : List Nat :=
  (List.range w).map (colSum B w)

/-- The non-search branch of `reduce_by_dckf`:
`first_to_measure = int(numpy.argmin(numpy.sum(biadjacency_matrix, axis=0)))`. -/
def firstToMeasure (B : Nat → Nat → Nat) (w : Nat) : Nat :=
  argminFirst (colSums B w)

/-! ### Noise constructors (`quantum/noise.py`) -/

/-- A matrix entry of a Kraus operator, representing the complex value
`(re + im·i)·√rad`.  Every entry produced by `quantum/noise.py` has this
shape (the Pauli matrices have entries `0, ±1, ±i` and each operator is a
Pauli or diagonal matrix scaled by a square root of a rational). -/
structure NEntry where
  re : ℚ
  im : ℚ
  rad : ℚ
deriving DecidableEq

/-- A plain rational entry `q = (q + 0·i)·√1`. -/
def rq (q : ℚ) : NEntry := ⟨q, 0, 1⟩

/-- A 2×2 complex matrix with symbolic square-root entries
(`numpy.ndarray` of shape `(2, 2)`, `dtype=complex`). -/
structure M2 where
  e00 : NEntry
  e01 : NEntry
  e10 : NEntry
  e11 : NEntry
deriving DecidableEq

/-- Scaling a matrix by `numpy.sqrt r`:
`√r · (z·√rad) = z·√(rad·r)` entrywise. -/
def sqrtSmul (r : ℚ) (m : M2) : M2 :=
  ⟨⟨m.e00.re, m.e00.im, m.e00.rad * r⟩, ⟨m.e01.re, m.e01.im, m.e01.rad * r⟩,
   ⟨m.e10.re, m.e10.im, m.e10.rad * r⟩, ⟨m.e11.re, m.e11.im, m.e11.rad * r⟩⟩

/-- `Gate.I()` (quantum/gate.py). -/
def gateI : M2 := ⟨rq 1, rq 0, rq 0, rq 1⟩

/-- `Gate.X()`. -/
def gateX : M2 := ⟨rq 0, rq 1, rq 1, rq 0⟩

/-- `Gate.Y()` (entries `-1j` and `1j`). -/
def gateY : M2 := ⟨rq 0, ⟨0, -1, 1⟩, ⟨0, 1, 1⟩, rq 0⟩

/-- `Gate.Z()`. -/
def gateZ : M2 := ⟨rq 1, rq 0, rq 0, ⟨-1, 0, 1⟩⟩

/-- The error a failing `assert 0 <= prob <= 1` raises, named after the
spec's error taxonomy. -/
inductive NoiseError where
  | invalidProbability
deriving DecidableEq

/-- The guard `assert 0 <= prob <= 1, "..."` shared by every noise
constructor: raises exactly when the probability is outside `[0, 1]`,
otherwise the constructor returns its Kraus list. -/
def guardProb (p : ℚ) (kraus : List M2) : Except NoiseError (List M2) :=
  if 0 ≤ p ∧ p ≤ 1 then Except.ok kraus else Except.error NoiseError.invalidProbability

namespace Noise

/-- `Noise.BitFlip`: `[√(1-p)·I, √p·X]`. -/
def BitFlip (p : ℚ) : Except NoiseError (List M2) :=
  guardProb p [sqrtSmul (1 - p) gateI, sqrtSmul p gateX]

/-- `Noise.PhaseFlip`: `[√(1-p)·I, √p·Z]`. -/
def PhaseFlip (p : ℚ) : Except NoiseError (List M2) :=
  guardProb p [sqrtSmul (1 - p) gateI, sqrtSmul p gateZ]

/-- `Noise.BitPhaseFlip`: `[√(1-p)·I, √p·Y]`. -/
def BitPhaseFlip (p : ℚ) : Except NoiseError (List M2) :=
  guardProb p [sqrtSmul (1 - p) gateI, sqrtSmul p gateY]

/-- `Noise.AmplitudeDamping`: `[[[1,0],[0,√(1-p)]], [[0,√p],[0,0]]]`. -/
def AmplitudeDamping (p : ℚ) : Except NoiseError (List M2) :=
  guardProb p [⟨rq 1, rq 0, rq 0, ⟨1, 0, 1 - p⟩⟩, ⟨rq 0, ⟨1, 0, p⟩, rq 0, rq 0⟩]

/-- `Noise.PhaseDamping`: `[[[1,0],[0,√(1-p)]], [[0,0],[0,√p]]]`. -/
def PhaseDamping (p : ℚ) : Except NoiseError (List M2) :=
  guardProb p [⟨rq 1, rq 0, rq 0, ⟨1, 0, 1 - p⟩⟩, ⟨rq 0, rq 0, rq 0, ⟨1, 0, p⟩⟩]

/-- `Noise.Depolarizing`: `[√(1-p)·I, √(p/3)·X, √(p/3)·Y, √(p/3)·Z]`. -/
def Depolarizing (p : ℚ) : Except NoiseError (List M2) :=
  guardProb p
    [sqrtSmul (1 - p) gateI, sqrtSmul (p / 3) gateX,
     sqrtSmul (p / 3) gateY, sqrtSmul (p / 3) gateZ]

end Noise

/-! ### Noise insertion (`noisy_simulation_BV_11.py`, `add_noise`) -/

/-- A serialized gate record
(`{'name': ..., 'which_qubit': [...], 'signature': ..., 'prob': ...}`). -/
structure GRec where
  name : String
  which : List Nat
  sig : Option Nat
  prob : Option ℚ
deriving DecidableEq

/-- The inserted record
`{'name': 'depolarizing', 'which_qubit': [lq], 'signature': None, 'prob': er}`. -/
def depolRec (lq : Nat) (er : ℚ) : GRec :=
  { name := "depolarizing", which := [lq], sig := none, prob := some er }

/-- The block of records one loop iteration of `add_noise` appends for one
input gate `g`: the gate plus its depolarizing noise (after single-qubit
gates, resets and two-qubit gates; before measurements).  `sf`, `spamf`,
`tf` are the `single_qubit_fidelity`, `spam_fidelity` and
`two_qubit_fidelity` tables and `mp` the logical-to-physical mapping. -/
def noiseBlock (sf spamf : Nat → ℚ) (tf : Nat → Nat → ℚ) (mp : Nat → Nat)
    (g : GRec) : List GRec :=
  if g.which.length = 1 then
    let lq := g.which.getD 0 0
    let pq := mp lq
    if g.name = "r" then [g, depolRec lq (1 - spamf pq)]
    else if g.name = "m" then [depolRec lq (1 - spamf pq), g]
    else [g, depolRec lq (1 - sf pq)]
  else
    let er := 1 - tf (mp (g.which.getD 0 0)) (mp (g.which.getD 1 0))
    [g, depolRec (g.which.getD 0 0) er, depolRec (g.which.getD 1 0) er]

/-- Embedding of `add_noise`: the loop
`for gate in circuit.gate_history: noisy_gate_history.append(...)`. -/
def addNoise (sf spamf : Nat → ℚ) (tf : Nat → Nat → ℚ) (mp : Nat → Nat)
    (hist : List GRec) : List GRec :=
  hist.foldl (fun acc g => acc ++ noiseBlock sf spamf tf mp g) []

/-! ### Bernstein-Vazirani nilpotency experiment
(`Bernstein_Vazirani_algorithm.py`) -/

/-- The ordered gate list of the Bernstein-Vazirani circuit with secret
`"10110"` (6 wires), each gate given by the list of wires it touches:
`h 0..4`; `x 5`; `h 5`; `cx [i,5]` for the secret's one-bits `i ∈ {0,2,3}`;
`h 0..4`; and one measurement per wire appended by `cir.measure()`
(spec §4.B: a bare `measure()` measures every referenced wire). -/
def bvGates : List (List Nat) :=
  [[0], [1], [2], [3], [4],
   [5], [5],
   [0, 5], [2, 5], [3, 5],
   [0], [1], [2], [3], [4],
   [0], [1], [2], [3], [4], [5]]

/-- Index of the first element satisfying `p` (the Python idiom
`[i for i in range(len(l)) if p(l[i])][0]`, as an `Option`). -/
def firstIdx? (p : α → Bool) : List α → Option Nat
  | [] => none
  | x :: xs => if p x then some 0 else (firstIdx? p xs).map (· + 1)

/-- Modelled from the spec: the DAG-lowering step of `Circuit.to_dag`
(§4.C, missing `quantum/circuit.py`): one node per gate, and for each gate,
edges from each involved wire's "last node seen" cursor to the new node.
The accumulator is `(edges, cursors, next node id)`. -/
def dagStep (acc : List (Nat × Nat) × (Nat → Option Nat) × Nat)
    (ws : List Nat) : List (Nat × Nat) × (Nat → Option Nat) × Nat :=
  (acc.1 ++ ws.filterMap (fun q => (acc.2.1 q).map (fun p => (p, acc.2.2))),
   fun q => if q ∈ ws then some acc.2.2 else acc.2.1 q,
   acc.2.2 + 1)

/-- Modelled from the spec: the edge list of the per-wire gate DAG (§4.C). -/
def dagEdges (gates : List (List Nat)) : List (Nat × Nat) :=
  (gates.foldl dagStep ([], fun _ => none, 0)).1

/-- Modelled from the spec: `roots[q]`, the first gate node touching wire `q`
(§4.C). -/
def rootsOf (gates : List (List Nat)) (q : Nat) : Nat :=
  (firstIdx? (fun ws => decide (q ∈ ws)) gates).getD 0

/-- Modelled from the spec: `terminals[q]`, the last gate node touching wire
`q` (§4.C). -/
def termsOf (gates : List (List Nat)) (q : Nat) : Nat :=
  gates.length - 1 - (firstIdx? (fun ws => decide (q ∈ ws)) gates.reverse).getD 0

/-- Entrywise disjunction of boolean matrices. -/
def bOr (A B : List (List Bool)) : List (List Bool) :=
  A.zipWith (fun r s => r.zipWith or s) B

/-- Boolean matrix product. -/
def bMul (A B : List (List Bool)) : List (List Bool) :=
  A.map (fun row =>
    (List.range B.length).map (fun j =>
      (row.zip B).any (fun ab => ab.1 && (ab.2.getD j false))))

/-- The `n × n` boolean identity matrix. -/
def idB (n : Nat) : List (List Bool) :=
  (List.range n).map (fun i => (List.range n).map (fun j => decide (i = j)))

/-- The node-level adjacency matrix of a gate list's DAG. -/
def adjB (gates : List (List Nat)) : List (List Bool) :=
  (List.range gates.length).map (fun i =>
    (List.range gates.length).map (fun j => decide ((i, j) ∈ dagEdges gates)))

/-- Modelled from the spec: the reachability closure of the DAG by repeated
boolean matrix squaring (§4.D, at most `⌈log₂ n⌉` squarings; 5 squarings
cover paths of length up to 32 ≥ 21 nodes), starting from `I ∨ A` so that
the closure also records the trivial path from a node to itself. -/
def reachB (gates : List (List Nat)) : List (List Bool) :=
  iter (fun M => bOr M (bMul M M)) 5 (bOr (idB gates.length) (adjB gates))

/-- Modelled from the spec: the biadjacency matrix `B` of a `w`-wire circuit,
`B[i][j] = 1` iff there is a directed path `roots[i] → terminals[j]` (§3). -/
def biadjOf (gates : List (List Nat)) (w : Nat) : List (List Nat) :=
  (List.range w).map (fun i =>
    (List.range w).map (fun j =>
      if ((reachB gates).getD (rootsOf gates i) []).getD (termsOf gates j) false
      then 1 else 0))

/-- `b_circuit`, the biadjacency matrix computed for the BV circuit. -/
def bvB : List (List Nat) := biadjOf bvGates 6

/-- `op_matrix`: `op_matrix[i][i+1] += 1` for `i in range(0, qubit_num - 2)`,
i.e. a 1 in entry `(i, i+1)` for `i ∈ {0, 1, 2, 3}`. -/
def opMatrix : List (List Nat) :=
  (List.range 6).map (fun i =>
    (List.range 6).map (fun j => if j = i + 1 ∧ i < 4 then 1 else 0))

/-- An `m × n` integer zero matrix (`numpy.zeros`). -/
def zerosM (m n : Nat) : List (List Nat) :=
  (List.range m).map (fun _ => (List.range n).map (fun _ => 0))

/-- `numpy.block([[zero_matrix, b_circuit], [op_matrix, zero_matrix]])`. -/
def bvAdjacency : List (List Nat) :=
  ((zerosM 6 6).zipWith (· ++ ·) bvB) ++ (opMatrix.zipWith (· ++ ·) (zerosM 6 6))

/-- Integer matrix product (`numpy.matmul` on `dtype=int` arrays). -/
def nMul (A B : List (List Nat)) : List (List Nat) :=
  A.map (fun row =>
    (List.range (B.getD 0 []).length).map (fun j =>
      (row.zip B).foldl (fun acc ab => acc + ab.1 * (ab.2.getD j 0)) 0))

/-- `reduce(numpy.matmul, [A for _ in range(k)])`: the left-associated `k`-th
power of `A` (for `k ≥ 1`). -/
def matPower (A : List (List Nat)) (k : Nat) : List (List Nat) :=
  iter (fun M => nMul M A) (k - 1) A

/-- The causal cones `all_causal_cones` of the 6-wire Bernstein-Vazirani
circuit with secret `"10110"` (the columns of `bvB`), used as concrete test
data for the planner. -/
def bvCones : Nat → Finset Nat
  | 0 => {0, 5}
  | 1 => {1}
  | 2 => {0, 2, 5}
  | 3 => {0, 2, 3, 5}
  | 4 => {4}
  | 5 => {0, 2, 3, 5}
  | _ => ∅

/-- The value `reduce_by_dckf` returns to its caller.  The Python function
is annotated `-> None`, mutates the circuit in place and has no `return`
statement, so it returns `None`; the result type here is the `Option` of the
pair the spec claims is returned, and the discarded `let` mirrors the
in-place compilation the function performs instead. -/
def reduceByDckfReturn (cones : Nat → Finset Nat) (B : Nat → Nat → Nat)
    (rs ts : Nat → Nat) (w : Nat) (firstQubitSearch : Bool) :
    Option (List Nat × List Edge) :=
  let _ :=
    if firstQubitSearch then dckfSearch cones rs ts w
    else greedyEdges cones rs ts w (firstToMeasure B w)
  none

/-- A one-gate history whose single record is already named
`depolarizing`. -/
def depolHist : List GRec := [{ name := "depolarizing", which := [0], sig := some 0, prob := none }]

/-- A two-gate history (a Hadamard followed by a measurement) used to
instantiate theorems about `add_noise`. -/
def hmHist : List GRec :=
  [{ name := "h", which := [0], sig := some 0, prob := none },
   { name := "m", which := [0], sig := some 1, prob := none }]

/-- Causal cones in which every wire's cone is itself alone: concrete data
exhibiting the greedy tie-break. -/
def singletonCones : Nat → Finset Nat := fun q => {q}

/-- Bookkeeping invariant on the register-management state, relative to the
list `order` of already measured wires.  `ms.occ.flatten` is the list of all
wires ever allocated into the register. -/
structure MInv (w : Nat) (order : List Nat) (ms : MState) : Prop where
  lenQO : ms.qreg.length = ms.occ.length
  csum : ms.occ.flatten.length = ms.qreg.length + ms.edges.length
  anodup : ms.occ.flatten.Nodup
  asub : ∀ v ∈ ms.occ.flatten, v < w
  cover : ∀ v, v ∈ ms.occ.flatten ↔ (v ∈ order ∨ some v ∈ ms.qreg)
  resNM : ∀ v ∈ order, some v ∉ ms.qreg
  slotLast : ∀ i, i < ms.qreg.length →
    ms.occ.getD i [] ≠ [] ∧
    (∀ v, ms.qreg.getD i none = some v → (ms.occ.getD i []).getLastD 0 = v) ∧
    (ms.qreg.getD i none = none → (ms.occ.getD i []).getLastD 0 ∈ order)

/-- The invariant maintained by the greedy planner loop. -/
structure Inv (cones : Nat → Finset Nat) (w : Nat) (s : PState) : Prop where
  perm : (s.order ++ s.unmeasured).Perm (List.range w)
  mconeSub : s.mcone ⊆ Finset.range w
  minv : MInv w s.order s.ms

end DQC

namespace DQC

/-! ## Theorems -/

/-- C7: for every probability `prob`, each of the six noise constructors
raises `InvalidProbability` if and only if `prob` lies outside `[0, 1]`, and
for `prob` inside `[0, 1]` returns its Kraus operator list without error. -/
theorem C7_noise_probability_guard (p : ℚ) :
    ((∃ k, Noise.BitFlip p = Except.ok k) ↔ 0 ≤ p ∧ p ≤ 1) ∧
    (Noise.BitFlip p = Except.error NoiseError.invalidProbability ↔ ¬(0 ≤ p ∧ p ≤ 1)) ∧
    ((∃ k, Noise.PhaseFlip p = Except.ok k) ↔ 0 ≤ p ∧ p ≤ 1) ∧
    (Noise.PhaseFlip p = Except.error NoiseError.invalidProbability ↔ ¬(0 ≤ p ∧ p ≤ 1)) ∧
    ((∃ k, Noise.BitPhaseFlip p = Except.ok k) ↔ 0 ≤ p ∧ p ≤ 1) ∧
    (Noise.BitPhaseFlip p = Except.error NoiseError.invalidProbability ↔ ¬(0 ≤ p ∧ p ≤ 1)) ∧
    ((∃ k, Noise.AmplitudeDamping p = Except.ok k) ↔ 0 ≤ p ∧ p ≤ 1) ∧
    (Noise.AmplitudeDamping p = Except.error NoiseError.invalidProbability ↔ ¬(0 ≤ p ∧ p ≤ 1)) ∧
    ((∃ k, Noise.PhaseDamping p = Except.ok k) ↔ 0 ≤ p ∧ p ≤ 1) ∧
    (Noise.PhaseDamping p = Except.error NoiseError.invalidProbability ↔ ¬(0 ≤ p ∧ p ≤ 1)) ∧
    ((∃ k, Noise.Depolarizing p = Except.ok k) ↔ 0 ≤ p ∧ p ≤ 1) ∧
    (Noise.Depolarizing p = Except.error NoiseError.invalidProbability ↔ ¬(0 ≤ p ∧ p ≤ 1)) := by
  by_cases h : 0 ≤ p ∧ p ≤ 1 <;>
    simp [Noise.BitFlip, Noise.PhaseFlip, Noise.BitPhaseFlip,
      Noise.AmplitudeDamping, Noise.PhaseDamping, Noise.Depolarizing, guardProb, h]

set_option maxRecDepth 20000 in
/-- C8: for the Bernstein-Vazirani circuit with secret `"10110"` (6 wires),
the 12×12 block matrix `[[0, B], [N, 0]]` built from the circuit's
biadjacency matrix `B` and the over-approximated optimal reuse edges `N` is
nilpotent: its 12-th power is the zero matrix. -/
theorem C8_bv_adjacency_nilpotent : matPower bvAdjacency 12 = zerosM 12 12 := by
  decide

end DQC

namespace DQC

/-- `foldl` with repeated appending is `flatMap`. -/
lemma foldl_append_eq_flatMap (B : α → List β) :
    ∀ (l : List α) (acc : List β),
      l.foldl (fun acc g => acc ++ B g) acc = acc ++ l.flatMap B := by
  intro l
  induction l with
  | nil => intro acc; simp
  | cons x xs ih => intro acc; simp [ih, List.append_assoc]

/-- The predicate selecting the records not named `depolarizing`. -/
def nonDepol (r : GRec) : Bool := decide (r.name ≠ "depolarizing")

/-- The noise block of a gate not named `depolarizing` keeps exactly that
gate among its non-depolarizing records. -/
lemma noiseBlock_filter (sf spamf : Nat → ℚ) (tf : Nat → Nat → ℚ)
    (mp : Nat → Nat) (g : GRec) (hg : g.name ≠ "depolarizing") :
    (noiseBlock sf spamf tf mp g).filter nonDepol = [g] := by
  unfold noiseBlock depolRec nonDepol
  by_cases h1 : g.which.length = 1 <;> by_cases h2 : g.name = "r" <;>
    by_cases h3 : g.name = "m" <;>
      simp [h1, h2, h3, hg, List.filter]

/-- Filtering the concatenated noise blocks of a depolarizing-free history
recovers the history. -/
lemma filter_flatMap_noiseBlock (sf spamf : Nat → ℚ) (tf : Nat → Nat → ℚ)
    (mp : Nat → Nat) :
    ∀ (hist : List GRec), (∀ g ∈ hist, g.name ≠ "depolarizing") →
      (hist.flatMap (noiseBlock sf spamf tf mp)).filter nonDepol = hist := by
  intro hist
  induction hist with
  | nil => intro _; simp
  | cons g gs ih =>
      intro hd
      rw [List.flatMap_cons, List.filter_append,
        noiseBlock_filter sf spamf tf mp g (hd g (by simp)),
        ih (fun x hx => hd x (by simp [hx]))]
      rfl

/-- C10 (amended): for every input gate history none of whose records is
already named `depolarizing`, and every logical-to-physical mapping and
fidelity tables, `add_noise` emits one block per original gate (so it
removes and reorders nothing), the non-`depolarizing` records of its output
are exactly the original history in order, and each block carries the
depolarizing records adjacent to the gate: before a measurement, after any
other gate. -/
theorem C10_addNoise_preserves_history (sf spamf : Nat → ℚ)
    (tf : Nat → Nat → ℚ) (mp : Nat → Nat) (hist : List GRec)
    (hd : ∀ g ∈ hist, g.name ≠ "depolarizing") :
    addNoise sf spamf tf mp hist = hist.flatMap (noiseBlock sf spamf tf mp) ∧
    (addNoise sf spamf tf mp hist).filter nonDepol = hist ∧
    (∀ g ∈ hist,
      (g.which.length = 1 → g.name = "m" →
        ∃ d, d.name = "depolarizing" ∧
          noiseBlock sf spamf tf mp g = [d, g]) ∧
      (g.which.length = 1 → g.name ≠ "m" →
        ∃ d, d.name = "depolarizing" ∧
          noiseBlock sf spamf tf mp g = [g, d]) ∧
      (g.which.length ≠ 1 →
        ∃ d₁ d₂, d₁.name = "depolarizing" ∧ d₂.name = "depolarizing" ∧
          noiseBlock sf spamf tf mp g = [g, d₁, d₂])) := by
  have hbind : addNoise sf spamf tf mp hist = hist.flatMap (noiseBlock sf spamf tf mp) :=
    foldl_append_eq_flatMap _ hist []
  refine ⟨hbind, ?_, ?_⟩
  · rw [hbind]
    exact filter_flatMap_noiseBlock sf spamf tf mp hist hd
  · intro g _
    refine ⟨?_, ?_, ?_⟩
    · intro h1 h3
      refine ⟨depolRec (g.which.getD 0 0) (1 - spamf (mp (g.which.getD 0 0))), rfl, ?_⟩
      have h2 : g.name ≠ "r" := by rw [h3]; decide
      simp [noiseBlock, h1, h2, h3]
    · intro h1 h3
      by_cases h2 : g.name = "r"
      · exact ⟨depolRec (g.which.getD 0 0) (1 - spamf (mp (g.which.getD 0 0))), rfl,
          by simp [noiseBlock, h1, h2]⟩
      · exact ⟨depolRec (g.which.getD 0 0) (1 - sf (mp (g.which.getD 0 0))), rfl,
          by simp [noiseBlock, h1, h2, h3]⟩
    · intro h1
      exact ⟨depolRec (g.which.getD 0 0) (1 - tf (mp (g.which.getD 0 0)) (mp (g.which.getD 1 0))),
        depolRec (g.which.getD 1 0) (1 - tf (mp (g.which.getD 0 0)) (mp (g.which.getD 1 0))),
        rfl, rfl, by simp [noiseBlock, h1]⟩

/-- C10 (counterexample): on a history whose single record is itself named
`depolarizing`, the non-`depolarizing` records of `add_noise`'s output do
not reproduce the original history, so the claim fails as stated for
arbitrary histories. -/
theorem C10_cex_depolarizing_input :
    (addNoise (fun _ => 1) (fun _ => 1) (fun _ _ => 1) id depolHist).filter
      nonDepol ≠ depolHist := by
  decide

/-- C10 (witness). -/
theorem C10_addNoise_witness :
    (∀ g ∈ hmHist, g.name ≠ "depolarizing") ∧
    (addNoise (fun _ => 1) (fun _ => 1) (fun _ _ => 1) id hmHist).filter
      nonDepol = hmHist :=
  ⟨by decide,
   (C10_addNoise_preserves_history (fun _ => 1) (fun _ => 1) (fun _ _ => 1)
      id hmHist (by decide)).2.1⟩

/-- C6 (counterexample): on the Bernstein-Vazirani input with
`first_qubit_search=True`, `reduce_by_dckf` does not return any pair
`(measurement_order, reuse_edges)`: it returns `None`. -/
theorem C6_cex_dckf_returns_none :
    ¬ ∃ p, reduceByDckfReturn bvCones (fun i q => (bvB.getD i []).getD q 0)
        id id 6 true = some p := by
  simp [reduceByDckfReturn]

/-- C6 (amended): the DCKF planner returns `None` to its caller (it compiles
the circuit in place), and its greedy tail returns only the reuse-edge list
`edge_addition`, not a `(measurement_order, reuse_edges)` pair. -/
theorem C6_return_values (cones : Nat → Finset Nat) (B : Nat → Nat → Nat)
    (rs ts : Nat → Nat) (w fq : Nat) (b : Bool) :
    reduceByDckfReturn cones B rs ts w b = none ∧
    greedyEdges cones rs ts w fq = (greedyRun cones rs ts w fq).ms.edges :=
  ⟨rfl, rfl⟩

end DQC

namespace DQC

/-- An in-bounds `getD` is a member. -/
lemma getD_mem : ∀ (l : List α) (k : Nat) (d : α), k < l.length → l.getD k d ∈ l
  | a :: l, 0, _, _ => List.mem_cons_self a l
  | a :: l, k + 1, d, h =>
      List.mem_cons_of_mem a (getD_mem l k d (Nat.lt_of_succ_lt_succ h))

/-- Characterization of `argminAux`: either the seed survives (it is a lower
bound of the scanned list) or the result points at the first strict
improvement, which is the first position of the list's minimum. -/
lemma argminAux_spec :
    ∀ (l : List Nat) (bv bi i : Nat),
      (argminAux l bv bi i = bi ∧ ∀ x ∈ l, bv ≤ x) ∨
      (∃ j, j < l.length ∧ argminAux l bv bi i = i + j ∧ l.getD j 0 < bv ∧
        (∀ k, k < l.length → l.getD j 0 ≤ l.getD k 0) ∧
        (∀ k, k < j → l.getD j 0 < l.getD k 0)) := by
  intro l
  induction l with
  | nil => intro bv bi i; exact Or.inl ⟨rfl, by simp⟩
  | cons x xs ih =>
      intro bv bi i
      by_cases hx : x < bv
      · rcases ih x i (i + 1) with ⟨heq, hall⟩ | ⟨j, hj, heq, hlt, hmin, hfirst⟩
        · refine Or.inr ⟨0, by simp, ?_, ?_, ?_, ?_⟩
          · simpa [argminAux, hx] using heq
          · simpa using hx
          · intro k hk
            match k with
            | 0 => simp
            | k + 1 =>
                simpa using hall _ (getD_mem xs k 0 (by simpa using hk))
          · intro k hk; omega
        · refine Or.inr ⟨j + 1, by simpa using Nat.succ_lt_succ hj, ?_, ?_, ?_, ?_⟩
          · have : argminAux (x :: xs) bv bi i = argminAux xs x i (i + 1) := by
              simp [argminAux, hx]
            rw [this, heq]; omega
          · simpa using Nat.lt_trans hlt hx
          · intro k hk
            match k with
            | 0 => simpa using Nat.le_of_lt hlt
            | k + 1 => simpa using hmin k (by simpa using hk)
          · intro k hk
            match k with
            | 0 => simpa using hlt
            | k + 1 => simpa using hfirst k (Nat.lt_of_succ_lt_succ hk)
      · have hbv : bv ≤ x := Nat.le_of_not_lt hx
        rcases ih bv bi (i + 1) with ⟨heq, hall⟩ | ⟨j, hj, heq, hlt, hmin, hfirst⟩
        · refine Or.inl ⟨by simpa [argminAux, hx] using heq, ?_⟩
          intro y hy
          rcases List.mem_cons.mp hy with h | h
          · exact h ▸ hbv
          · exact hall y h
        · refine Or.inr ⟨j + 1, by simpa using Nat.succ_lt_succ hj, ?_, ?_, ?_, ?_⟩
          · have : argminAux (x :: xs) bv bi i = argminAux xs bv bi (i + 1) := by
              simp [argminAux, hx]
            rw [this, heq]; omega
          · simpa using hlt
          · intro k hk
            match k with
            | 0 => simpa using Nat.le_of_lt (Nat.lt_of_lt_of_le hlt hbv)
            | k + 1 => simpa using hmin k (by simpa using hk)
          · intro k hk
            match k with
            | 0 => simpa using Nat.lt_of_lt_of_le hlt hbv
            | k + 1 => simpa using hfirst k (Nat.lt_of_succ_lt_succ hk)

/-- `argminFirst` returns an in-range index of a minimal element, and the
smallest such index. -/
lemma argminFirst_spec (l : List Nat) (hl : l ≠ []) :
    argminFirst l < l.length ∧
    (∀ k, k < l.length → l.getD (argminFirst l) 0 ≤ l.getD k 0) ∧
    (∀ k, k < l.length → l.getD k 0 = l.getD (argminFirst l) 0 →
      argminFirst l ≤ k) := by
  match l with
  | [] => exact absurd rfl hl
  | x :: xs =>
      rw [show argminFirst (x :: xs) = argminAux xs x 0 1 from rfl]
      rcases argminAux_spec xs x 0 1 with ⟨heq, hall⟩ | ⟨j, hj, heq, hlt, hmin, hfirst⟩
      · rw [heq]
        refine ⟨by simp, ?_, ?_⟩
        · intro k hk
          match k with
          | 0 => simp
          | k + 1 => simpa using hall _ (getD_mem xs k 0 (by simpa using hk))
        · intro k _ _; exact Nat.zero_le k
      · rw [heq]
        have h1j : 1 + j = j + 1 := Nat.add_comm 1 j
        refine ⟨by simpa [h1j] using Nat.succ_lt_succ hj, ?_, ?_⟩
        · intro k hk
          have hgj : (x :: xs).getD (1 + j) 0 = xs.getD j 0 := by
            rw [h1j]; simp
          rw [hgj]
          match k with
          | 0 => simpa using Nat.le_of_lt hlt
          | k + 1 => simpa using hmin k (by simpa using hk)
        · intro k hk hkeq
          have hgj : (x :: xs).getD (1 + j) 0 = xs.getD j 0 := by
            rw [h1j]; simp
          rw [hgj] at hkeq
          match k with
          | 0 =>
              exfalso
              simp only [List.getD_cons_zero] at hkeq
              omega
          | k + 1 =>
              simp only [List.getD_cons_succ] at hkeq
              by_cases hkj : k < j
              · exact absurd hkeq (Nat.ne_of_gt (hfirst k hkj))
              · omega

/-- The `q`-th entry of the column-sum list. -/
lemma colSums_getD (B : Nat → Nat → Nat) (w q : Nat) (hq : q < w) :
    (colSums B w).getD q 0 = colSum B w q := by
  unfold colSums
  rw [List.getD_eq_getElem _ _ (by simpa using hq)]
  simp

/-- C5: without first-qubit search, the planner picks as first measured
qubit the wire minimizing the column sum of the biadjacency matrix, with
ties broken by the smallest wire index (`numpy.argmin` returns the first
occurrence of the minimum). -/
theorem C5_first_qubit_is_argmin_colsum (B : Nat → Nat → Nat) (w : Nat)
    (hw : 1 ≤ w) :
    firstToMeasure B w < w ∧
    (∀ q, q < w → colSum B w (firstToMeasure B w) ≤ colSum B w q) ∧
    (∀ q, q < w → colSum B w q = colSum B w (firstToMeasure B w) →
      firstToMeasure B w ≤ q) := by
  have hlen : (colSums B w).length = w := by simp [colSums]
  have hne : colSums B w ≠ [] := by
    intro h
    rw [h] at hlen
    simp at hlen
    omega
  obtain ⟨h1, h2, h3⟩ := argminFirst_spec (colSums B w) hne
  rw [hlen] at h1
  refine ⟨h1, ?_, ?_⟩
  · intro q hq
    have := h2 q (by rwa [hlen])
    rwa [colSums_getD B w _ h1, colSums_getD B w q hq] at this
  · intro q hq hqe
    refine h3 q (by rwa [hlen]) ?_
    rwa [colSums_getD B w _ h1, colSums_getD B w q hq]

/-- C5 (witness). -/
theorem C5_witness :
    1 ≤ 6 ∧
    firstToMeasure (fun i q => (bvB.getD i []).getD q 0) 6 < 6 ∧
    (∀ q, q < 6 → colSum (fun i q => (bvB.getD i []).getD q 0) 6
        (firstToMeasure (fun i q => (bvB.getD i []).getD q 0) 6) ≤
      colSum (fun i q => (bvB.getD i []).getD q 0) 6 q) :=
  ⟨by decide,
   (C5_first_qubit_is_argmin_colsum (fun i q => (bvB.getD i []).getD q 0) 6
      (by decide)).1,
   (C5_first_qubit_is_argmin_colsum (fun i q => (bvB.getD i []).getD q 0) 6
      (by decide)).2.1⟩

end DQC

namespace DQC

/-- Characterization of the greedy selection scan: either no qubit's union
fits under the seed bound and the seed survives, or the result is the last
qubit of the list attaining the minimal union size (elements scanned before
it are no smaller, elements after it are strictly larger). -/
lemma selectNext_spec (cones : Nat → Finset Nat) (mcone : Finset Nat) :
    ∀ (L : List Nat) (o : Option Nat) (b : Nat),
      (L.foldl (selStep cones mcone) (o, b) = (o, b) ∧
        ∀ q ∈ L, b < (mcone ∪ cones q).card) ∨
      (∃ q L₁ L₂, L = L₁ ++ q :: L₂ ∧
        L.foldl (selStep cones mcone) (o, b) =
          (some q, (mcone ∪ cones q).card) ∧
        (mcone ∪ cones q).card ≤ b ∧
        (∀ p ∈ L₁, (mcone ∪ cones q).card ≤ (mcone ∪ cones p).card) ∧
        (∀ p ∈ L₂, (mcone ∪ cones q).card < (mcone ∪ cones p).card)) := by
  intro L
  induction L with
  | nil => intro o b; exact Or.inl ⟨rfl, by simp⟩
  | cons x xs ih =>
      intro o b
      by_cases hx : (mcone ∪ cones x).card ≤ b
      · have hstep : (x :: xs).foldl (selStep cones mcone) (o, b) =
            xs.foldl (selStep cones mcone) (some x, (mcone ∪ cones x).card) := by
          simp [selStep, hx]
        rcases ih (some x) (mcone ∪ cones x).card with ⟨heq, hall⟩ |
          ⟨q, L₁, L₂, hL, heq, hqb, hmin₁, hmin₂⟩
        · exact Or.inr ⟨x, [], xs, by simp, by rw [hstep, heq], hx, by simp, hall⟩
        · refine Or.inr ⟨q, x :: L₁, L₂, by simp [hL], by rw [hstep, heq], ?_, ?_, hmin₂⟩
          · exact Nat.le_trans hqb hx
          · intro p hp
            rcases List.mem_cons.mp hp with h | h
            · exact h ▸ hqb
            · exact hmin₁ p h
      · have hstep : (x :: xs).foldl (selStep cones mcone) (o, b) =
            xs.foldl (selStep cones mcone) (o, b) := by
          simp [selStep, hx]
        rcases ih o b with ⟨heq, hall⟩ | ⟨q, L₁, L₂, hL, heq, hqb, hmin₁, hmin₂⟩
        · refine Or.inl ⟨by rw [hstep, heq], ?_⟩
          intro p hp
          rcases List.mem_cons.mp hp with h | h
          · exact h ▸ Nat.lt_of_not_le hx
          · exact hall p h
        · refine Or.inr ⟨q, x :: L₁, L₂, by simp [hL], by rw [hstep, heq], hqb, ?_, hmin₂⟩
          intro p hp
          rcases List.mem_cons.mp hp with h | h
          · exact h ▸ Nat.le_trans hqb (Nat.le_of_lt (Nat.lt_of_not_le hx))
          · exact hmin₁ p h

/-- C2 (amended): at every greedy step, scanning the unmeasured qubits in
ascending order with the non-strict test `len(union) <= union_size` selects
an unmeasured wire whose union with the measured causal cone is minimal,
and among the minimizers the one with the LARGEST index (the last minimizer
scanned overwrites the earlier ones). -/
theorem C2_next_measurement_largest_minimizer
    (cones : Nat → Finset Nat) (w : Nat) (mcone : Finset Nat) (L : List Nat)
    (hsort : L.Pairwise (· < ·))
    (hbound : ∀ q ∈ L, (mcone ∪ cones q).card ≤ w)
    (hne : L ≠ []) :
    ∃ q ∈ L, (selectNext cones w mcone L).1 = some q ∧
      (∀ p ∈ L, (mcone ∪ cones q).card ≤ (mcone ∪ cones p).card) ∧
      (∀ p ∈ L, (mcone ∪ cones p).card = (mcone ∪ cones q).card → p ≤ q) := by
  rcases selectNext_spec cones mcone L none w with ⟨_, hall⟩ |
    ⟨q, L₁, L₂, hL, heq, _, hmin₁, hmin₂⟩
  · match L, hne with
    | x :: xs, _ =>
        exact absurd (hbound x (by simp)) (Nat.not_le_of_lt (hall x (by simp)))
  · have hqmem : q ∈ L := by rw [hL]; exact List.mem_append_right _ (List.mem_cons_self q L₂)
    refine ⟨q, hqmem, ?_, ?_, ?_⟩
    · rw [selectNext, heq]
    · intro p hp
      rw [hL] at hp
      rcases List.mem_append.mp hp with h | h
      · exact hmin₁ p h
      · rcases List.mem_cons.mp h with h | h
        · exact h ▸ Nat.le_refl _
        · exact Nat.le_of_lt (hmin₂ p h)
    · intro p hp hpe
      rw [hL] at hp hsort
      rcases List.mem_append.mp hp with h | h
      · have := (List.pairwise_append.mp hsort).2.2 p h q (List.mem_cons_self q L₂)
        exact Nat.le_of_lt this
      · rcases List.mem_cons.mp h with h | h
        · exact h ▸ Nat.le_refl q
        · exact absurd hpe (Nat.ne_of_gt (hmin₂ p h))

/-- C2 (counterexample): with the singleton causal cones on three wires,
measured cone `{0}` and unmeasured wires `[1, 2]`, wires 1 and 2 tie for
the minimal union size but the scan selects wire 2, not the smallest index
1 as the claim states. -/
theorem C2_cex_tie_goes_to_largest :
    (selectNext singletonCones 3 {0} [1, 2]).1 = some 2 ∧
    (({0} : Finset Nat) ∪ singletonCones 1).card =
      (({0} : Finset Nat) ∪ singletonCones 2).card ∧
    (2 : Nat) ≠ 1 ∧
    (greedyRun singletonCones id id 3 0).order = [0, 2, 1] := by
  refine ⟨?_, ?_, by decide, ?_⟩ <;> decide

/-- C2 (witness). -/
theorem C2_witness :
    ([1, 2] : List Nat).Pairwise (· < ·) ∧
    (∀ q ∈ ([1, 2] : List Nat), (({0} : Finset Nat) ∪ singletonCones q).card ≤ 3) ∧
    ([1, 2] : List Nat) ≠ [] ∧
    (∃ q ∈ ([1, 2] : List Nat), (selectNext singletonCones 3 {0} [1, 2]).1 = some q ∧
      (∀ p ∈ ([1, 2] : List Nat),
        (({0} : Finset Nat) ∪ singletonCones q).card ≤ (({0} : Finset Nat) ∪ singletonCones p).card) ∧
      (∀ p ∈ ([1, 2] : List Nat),
        (({0} : Finset Nat) ∪ singletonCones p).card = (({0} : Finset Nat) ∪ singletonCones q).card →
          p ≤ q)) :=
  ⟨by decide, by decide, by decide,
   C2_next_measurement_largest_minimizer singletonCones 3 {0} [1, 2]
     (by decide) (by decide) (by decide)⟩

end DQC

namespace DQC

/-- Characterization of the brute-force scan over first qubits: either no
run strictly beats the seed (which then survives), or the result is the run
of the first qubit attaining the maximal edge count (every earlier run is
strictly shorter, every later one no longer). -/
lemma dckfFold_spec (runs : Nat → List Edge) :
    ∀ (L : List Nat) (best : List Edge),
      (L.foldl (fun b fq => if b.length < (runs fq).length then runs fq else b)
          best = best ∧
        ∀ q ∈ L, (runs q).length ≤ best.length) ∨
      (∃ q L₁ L₂, L = L₁ ++ q :: L₂ ∧
        L.foldl (fun b fq => if b.length < (runs fq).length then runs fq else b)
          best = runs q ∧
        best.length < (runs q).length ∧
        (∀ p ∈ L₁, (runs p).length < (runs q).length) ∧
        (∀ p ∈ L₂, (runs p).length ≤ (runs q).length)) := by
  intro L
  induction L with
  | nil => intro best; exact Or.inl ⟨rfl, by simp⟩
  | cons x xs ih =>
      intro best
      by_cases hx : best.length < (runs x).length
      · have hstep : (x :: xs).foldl
            (fun b fq => if b.length < (runs fq).length then runs fq else b) best =
            xs.foldl (fun b fq => if b.length < (runs fq).length then runs fq else b)
              (runs x) := by
          simp [hx]
        rcases ih (runs x) with ⟨heq, hall⟩ | ⟨q, L₁, L₂, hL, heq, hql, hmax₁, hmax₂⟩
        · exact Or.inr ⟨x, [], xs, by simp, by rw [hstep, heq], hx, by simp, hall⟩
        · refine Or.inr ⟨q, x :: L₁, L₂, by simp [hL], by rw [hstep, heq],
            Nat.lt_trans hx hql, ?_, hmax₂⟩
          intro p hp
          rcases List.mem_cons.mp hp with h | h
          · exact h ▸ hql
          · exact hmax₁ p h
      · have hstep : (x :: xs).foldl
            (fun b fq => if b.length < (runs fq).length then runs fq else b) best =
            xs.foldl (fun b fq => if b.length < (runs fq).length then runs fq else b)
              best := by
          simp [hx]
        rcases ih best with ⟨heq, hall⟩ | ⟨q, L₁, L₂, hL, heq, hql, hmax₁, hmax₂⟩
        · refine Or.inl ⟨by rw [hstep, heq], ?_⟩
          intro p hp
          rcases List.mem_cons.mp hp with h | h
          · exact h ▸ Nat.le_of_not_lt hx
          · exact hall p h
        · refine Or.inr ⟨q, x :: L₁, L₂, by simp [hL], by rw [hstep, heq], hql, ?_, hmax₂⟩
          intro p hp
          rcases List.mem_cons.mp hp with h | h
          · exact h ▸ Nat.lt_of_le_of_lt (Nat.le_of_not_lt hx) hql
          · exact hmax₁ p h

/-- C4: with `first_qubit_search=True`, the planner runs the greedy tail for
each of the `w` first qubits and applies the edge set of maximal cardinality
among those runs; since an incumbent is replaced only by a strictly larger
edge set, among ties the run with the smallest first-qubit index wins. -/
theorem C4_first_qubit_search_keeps_max (cones : Nat → Finset Nat)
    (rs ts : Nat → Nat) (w : Nat) (hw : 1 ≤ w) :
    ∃ fq, fq < w ∧ dckfSearch cones rs ts w = greedyEdges cones rs ts w fq ∧
      (∀ p, p < w →
        (greedyEdges cones rs ts w p).length ≤ (greedyEdges cones rs ts w fq).length) ∧
      (∀ p, p < w →
        (greedyEdges cones rs ts w p).length = (greedyEdges cones rs ts w fq).length →
          fq ≤ p) := by
  have hsearch : dckfSearch cones rs ts w =
      (List.range w).foldl
        (fun b fq => if b.length < (greedyEdges cones rs ts w fq).length
          then greedyEdges cones rs ts w fq else b) [] := rfl
  rcases dckfFold_spec (greedyEdges cones rs ts w) (List.range w) [] with
    ⟨heq, hall⟩ | ⟨q, L₁, L₂, hL, heq, _, hmax₁, hmax₂⟩
  · refine ⟨0, hw, ?_, ?_, ?_⟩
    · have h0 : (greedyEdges cones rs ts w 0).length ≤ 0 :=
        hall 0 (List.mem_range.mpr hw)
      have h0e : greedyEdges cones rs ts w 0 = [] :=
        List.eq_nil_of_length_eq_zero (Nat.le_zero.mp h0)
      rw [hsearch, heq, h0e]
    · intro p hp
      have := hall p (List.mem_range.mpr hp)
      simp only [List.length_nil, Nat.le_zero] at this
      omega
    · intro p _ _; exact Nat.zero_le p
  · have hqmem : q ∈ List.range w := by
      rw [hL]; exact List.mem_append_right _ (List.mem_cons_self q L₂)
    refine ⟨q, List.mem_range.mp hqmem, by rw [hsearch, heq], ?_, ?_⟩
    · intro p hp
      have hpL : p ∈ List.range w := List.mem_range.mpr hp
      rw [hL] at hpL
      rcases List.mem_append.mp hpL with h | h
      · exact Nat.le_of_lt (hmax₁ p h)
      · rcases List.mem_cons.mp h with h | h
        · exact h ▸ Nat.le_refl _
        · exact hmax₂ p h
    · intro p hp hpe
      have hpL : p ∈ List.range w := List.mem_range.mpr hp
      rw [hL] at hpL
      have hsorted : (L₁ ++ q :: L₂).Pairwise (· < ·) := by
        rw [← hL]; exact List.pairwise_lt_range w
      rcases List.mem_append.mp hpL with h | h
      · exact absurd hpe (Nat.ne_of_lt (hmax₁ p h))
      · rcases List.mem_cons.mp h with h | h
        · exact h ▸ Nat.le_refl q
        · exact Nat.le_of_lt
            ((List.pairwise_cons.mp (List.pairwise_append.mp hsorted).2.1).1 p h)

/-- C4 (witness). -/
theorem C4_witness :
    1 ≤ 6 ∧
    (∃ fq, fq < 6 ∧ dckfSearch bvCones id id 6 = greedyEdges bvCones id id 6 fq ∧
      (∀ p, p < 6 →
        (greedyEdges bvCones id id 6 p).length ≤ (greedyEdges bvCones id id 6 fq).length) ∧
      (∀ p, p < 6 →
        (greedyEdges bvCones id id 6 p).length = (greedyEdges bvCones id id 6 fq).length →
          fq ≤ p)) :=
  ⟨by decide, C4_first_qubit_search_keeps_max bvCones id id 6 (by decide)⟩

end DQC

namespace DQC

/-- C3: when the planner activates a wire `q` that is not resident in the
register, it loads `q` into the free cell of smallest index when one exists
— appending exactly one reuse edge `(terminals[m], roots[q])` for the
measured wire `m` that last occupied that cell — and otherwise grows the
register by one fresh cell, appending no edge.  The hypothesis `hfree`
(every free cell was vacated by a measured wire, its occupation history
nonempty) is an invariant of all reachable planner states. -/
theorem C3_manage_first_free_slot (rs ts : Nat → Nat) (s : MState) (q : Nat)
    (horder : List Nat) (hnr : some q ∉ s.qreg)
    (hfree : ∀ i, i < s.qreg.length → s.qreg.getD i (some 0) = none →
      (s.occ.getD i [] ≠ [] ∧ (s.occ.getD i []).getLastD 0 ∈ horder)) :
    (∀ dyn, firstFree s.qreg = some dyn →
      dyn < s.qreg.length ∧ s.qreg.getD dyn (some 0) = none ∧
      (∀ j, j < dyn → s.qreg.getD j (some 0) ≠ none) ∧
      manage rs ts s q =
        { qreg := s.qreg.set dyn (some q)
          occ := s.occ.set dyn ((s.occ.getD dyn []) ++ [q])
          edges := s.edges ++ [(ts ((s.occ.getD dyn []).getLastD 0), rs q)] } ∧
      s.occ.getD dyn [] ≠ [] ∧ (s.occ.getD dyn []).getLastD 0 ∈ horder) ∧
    (firstFree s.qreg = none →
      (∀ x ∈ s.qreg, x ≠ none) ∧
      manage rs ts s q =
        { qreg := s.qreg ++ [some q], occ := s.occ ++ [[q]], edges := s.edges }) := by
  constructor
  · intro dyn hdyn
    obtain ⟨hlt, hp, hbefore⟩ := List.findIdx?_eq_some_iff_getElem.mp hdyn
    have hcell : s.qreg.getD dyn (some 0) = none := by
      rw [List.getD_eq_getElem _ _ hlt]
      exact Option.isNone_iff_eq_none.mp hp
    refine ⟨hlt, hcell, ?_, ?_, hfree dyn hlt hcell⟩
    · intro j hj hje
      have hjlt : j < s.qreg.length := Nat.lt_trans hj hlt
      have := hbefore j hj
      rw [List.getD_eq_getElem _ _ hjlt] at hje
      simp [hje] at this
    · simp only [manage, hnr, if_neg, hdyn]
      rfl
  · intro hnone
    refine ⟨?_, ?_⟩
    · intro x hx hxe
      have := List.findIdx?_eq_none_iff.mp hnone x hx
      rw [hxe] at this
      simp at this
    · simp only [manage, hnr, if_neg, hnone]
      rfl

/-- C3 (witness). -/
theorem C3_witness :
    (some 2 ∉ [some 0, (none : Option Nat)]) ∧
    manage id id { qreg := [some 0, none], occ := [[7], [3]], edges := [] } 2 =
      { qreg := [some 0, some 2], occ := [[7], [3, 2]], edges := [(3, 2)] } := by
  refine ⟨by decide, ?_⟩
  have h := (C3_manage_first_free_slot id id
    { qreg := [some 0, none], occ := [[7], [3]], edges := [] } 2 [3]
    (by decide) (by decide)).1 1 rfl
  rw [h.2.2.2.1]
  rfl

end DQC

namespace DQC

/-! ### List helper lemmas for the planner invariant -/

/-- `set` at a different index leaves `getD` unchanged. -/
lemma getD_set_ne : ∀ (l : List α) (i j : Nat) (a d : α), i ≠ j →
    (l.set i a).getD j d = l.getD j d
  | [], _, _, _, _, _ => rfl
  | _ :: _, 0, 0, _, _, h => absurd rfl h
  | _ :: _, 0, _ + 1, _, _, _ => rfl
  | _ :: _, _ + 1, 0, _, _, _ => rfl
  | _ :: xs, i + 1, j + 1, a, d, h =>
      getD_set_ne xs i j a d (fun he => h (by rw [he]))

/-- `set` at an in-range index updates `getD` there. -/
lemma getD_set_self : ∀ (l : List α) (i : Nat) (a d : α), i < l.length →
    (l.set i a).getD i d = a
  | _ :: _, 0, _, _, _ => rfl
  | _ :: xs, i + 1, a, d, h => getD_set_self xs i a d (Nat.lt_of_succ_lt_succ h)

/-- Membership survives `set` when the overwritten cell does not hold the
member. -/
lemma mem_set_of_ne : ∀ (l : List α) (i : Nat) (a x d : α), x ∈ l →
    l.getD i d ≠ x → x ∈ l.set i a
  | y :: ys, 0, a, x, d, hx, hne => by
      rcases List.mem_cons.mp hx with h | h
      · exact absurd h.symm hne
      · exact List.mem_cons_of_mem a h
  | y :: ys, i + 1, a, x, d, hx, hne => by
      rcases List.mem_cons.mp hx with h | h
      · exact h ▸ List.mem_cons_self y _
      · exact List.mem_cons_of_mem y (mem_set_of_ne ys i a x d h hne)
  | [], _, _, _, _, hx, _ => absurd hx (List.not_mem_nil _)

/-- The written value is a member of the updated list. -/
lemma mem_set_self : ∀ (l : List α) (i : Nat) (a : α), i < l.length →
    a ∈ l.set i a
  | _ :: _, 0, a, _ => List.mem_cons_self a _
  | y :: ys, i + 1, a, h =>
      List.mem_cons_of_mem y (mem_set_self ys i a (Nat.lt_of_succ_lt_succ h))

/-- A nonempty list contains its `getLastD`. -/
lemma getLastD_mem : ∀ (l : List α) (d : α), l ≠ [] → l.getLastD d ∈ l
  | [x], _, _ => by simp
  | x :: y :: ys, d, _ => by
      rw [List.getLastD_cons]
      exact List.mem_cons_of_mem x (getLastD_mem (y :: ys) x (by simp))

/-- Membership via in-range `getD`. -/
lemma mem_iff_getD (l : List α) (x d : α) :
    x ∈ l ↔ ∃ i, i < l.length ∧ l.getD i d = x := by
  constructor
  · intro hx
    obtain ⟨i, hi, he⟩ := List.mem_iff_getElem.mp hx
    exact ⟨i, hi, by rw [List.getD_eq_getElem _ _ hi]; exact he⟩
  · rintro ⟨i, hi, he⟩
    rw [List.getD_eq_getElem _ _ hi] at he
    exact he ▸ List.getElem_mem hi

/-- Appending one element inside one cell of a list of lists permutes the
flattening to a fresh cons. -/
lemma flatten_set_append : ∀ (L : List (List α)) (i : Nat) (a : α),
    i < L.length →
    (L.set i (L.getD i [] ++ [a])).flatten.Perm (a :: L.flatten)
  | l :: ls, 0, a, _ => by
      simp only [List.set_cons_zero, List.getD_cons_zero, List.flatten_cons,
        List.append_assoc]
      exact List.perm_middle
  | l :: ls, i + 1, a, h => by
      simp only [List.set_cons_succ, List.getD_cons_succ, List.flatten_cons]
      exact ((flatten_set_append ls i a (Nat.lt_of_succ_lt_succ h)).append_left l).trans
        List.perm_middle

/-- In a list of lists with `Nodup` flattening, distinct cells are
disjoint. -/
lemma flatten_nodup_cells_disjoint :
    ∀ (L : List (List α)), L.flatten.Nodup →
      ∀ i j, i ≠ j → ∀ x, x ∈ L.getD i [] → x ∈ L.getD j [] → False := by
  intro L
  induction L with
  | nil =>
      intro _ i j _ x hx
      simp [List.getD] at hx
  | cons l ls ih =>
      intro hnd i j hij x hxi hxj
      rw [List.flatten_cons, List.nodup_append] at hnd
      obtain ⟨hndl, hndf, hdisj⟩ := hnd
      match i, j with
      | 0, 0 => exact hij rfl
      | 0, j + 1 =>
          rw [List.getD_cons_zero] at hxi
          rw [List.getD_cons_succ] at hxj
          by_cases hj : j < ls.length
          · exact hdisj hxi (List.mem_flatten_of_mem (getD_mem ls j [] hj) hxj)
          · rw [List.getD_eq_default _ _ (Nat.le_of_not_lt hj)] at hxj
            exact absurd hxj (List.not_mem_nil x)
      | i + 1, 0 =>
          rw [List.getD_cons_zero] at hxj
          rw [List.getD_cons_succ] at hxi
          by_cases hi : i < ls.length
          · exact hdisj hxj (List.mem_flatten_of_mem (getD_mem ls i [] hi) hxi)
          · rw [List.getD_eq_default _ _ (Nat.le_of_not_lt hi)] at hxi
            exact absurd hxi (List.not_mem_nil x)
      | i + 1, j + 1 =>
          rw [List.getD_cons_succ] at hxi hxj
          exact ih hndf i j (fun he => hij (by rw [he])) x hxi hxj

/-- `getD` at the length of the prefix of a one-element append. -/
lemma getD_concat_length : ∀ (l : List α) (a d : α),
    (l ++ [a]).getD l.length d = a
  | [], _, _ => rfl
  | _ :: xs, a, d => getD_concat_length xs a d

end DQC

namespace DQC

/-! ### Behaviour of `manage` -/

/-- `firstFree` yields an in-range free cell. -/
lemma firstFree_some_spec (qreg : List (Option Nat)) (dyn : Nat)
    (h : firstFree qreg = some dyn) :
    dyn < qreg.length ∧ qreg.getD dyn none = none := by
  obtain ⟨hlt, hp, _⟩ := List.findIdx?_eq_some_iff_getElem.mp h
  exact ⟨hlt, by rw [List.getD_eq_getElem _ _ hlt]; exact Option.isNone_iff_eq_none.mp hp⟩

/-- `manage` on a non-resident wire with a free cell available. -/
lemma manage_eq_of_free (rs ts : Nat → Nat) (ms : MState) (q dyn : Nat)
    (hres : some q ∉ ms.qreg) (hff : firstFree ms.qreg = some dyn) :
    manage rs ts ms q =
      { qreg := ms.qreg.set dyn (some q)
        occ := ms.occ.set dyn ((ms.occ.getD dyn []) ++ [q])
        edges := ms.edges ++ [(ts ((ms.occ.getD dyn []).getLastD 0), rs q)] } := by
  simp only [manage, hres, if_neg, hff]
  rfl

/-- `manage` on a non-resident wire with every cell occupied. -/
lemma manage_eq_of_full (rs ts : Nat → Nat) (ms : MState) (q : Nat)
    (hres : some q ∉ ms.qreg) (hff : firstFree ms.qreg = none) :
    manage rs ts ms q =
      { qreg := ms.qreg ++ [some q], occ := ms.occ ++ [[q]], edges := ms.edges } := by
  simp only [manage, hres, if_neg, hff]
  rfl

/-- `manage` never evicts a resident wire. -/
lemma manage_resident_mono (rs ts : Nat → Nat) (ms : MState) (q v : Nat)
    (hv : some v ∈ ms.qreg) : some v ∈ (manage rs ts ms q).qreg := by
  by_cases hres : some q ∈ ms.qreg
  · simpa [manage, hres] using hv
  · cases hff : firstFree ms.qreg with
    | some dyn =>
        rw [manage_eq_of_free rs ts ms q dyn hres hff]
        obtain ⟨hlt, hcell⟩ := firstFree_some_spec _ _ hff
        exact mem_set_of_ne _ dyn (some q) (some v) none hv (by rw [hcell]; simp)
    | none =>
        rw [manage_eq_of_full rs ts ms q hres hff]
        exact List.mem_append_left _ hv

/-- After `manage`, the handled wire is resident. -/
lemma manage_resident_self (rs ts : Nat → Nat) (ms : MState) (q : Nat) :
    some q ∈ (manage rs ts ms q).qreg := by
  by_cases hres : some q ∈ ms.qreg
  · simpa [manage, hres] using hres
  · cases hff : firstFree ms.qreg with
    | some dyn =>
        rw [manage_eq_of_free rs ts ms q dyn hres hff]
        exact mem_set_self _ dyn (some q) (firstFree_some_spec _ _ hff).1
    | none =>
        rw [manage_eq_of_full rs ts ms q hres hff]
        exact List.mem_append_right _ (by simp)

/-- The register never shrinks under `manage`. -/
lemma manage_length_mono (rs ts : Nat → Nat) (ms : MState) (q : Nat) :
    ms.qreg.length ≤ (manage rs ts ms q).qreg.length := by
  by_cases hres : some q ∈ ms.qreg
  · simp [manage, hres]
  · cases hff : firstFree ms.qreg with
    | some dyn =>
        rw [manage_eq_of_free rs ts ms q dyn hres hff]
        simp
    | none =>
        rw [manage_eq_of_full rs ts ms q hres hff]
        simp

/-- `manage` preserves the register invariant for a wire that is unmeasured
and in range. -/
lemma manage_MInv (rs ts : Nat → Nat) (w : Nat) (order : List Nat)
    (ms : MState) (q : Nat) (h : MInv w order ms)
    (hqo : q ∉ order) (hqw : q < w) : MInv w order (manage rs ts ms q) := by
  by_cases hres : some q ∈ ms.qreg
  · simpa [manage, hres] using h
  · have hqf : q ∉ ms.occ.flatten := fun hx => by
      rcases (h.cover q).mp hx with h1 | h1
      exacts [hqo h1, hres h1]
    cases hff : firstFree ms.qreg with
    | some dyn =>
        obtain ⟨hlt, hcell⟩ := firstFree_some_spec _ _ hff
        have hlt2 : dyn < ms.occ.length := h.lenQO ▸ hlt
        rw [manage_eq_of_free rs ts ms q dyn hres hff]
        have hperm := flatten_set_append ms.occ dyn q hlt2
        have hlen : (ms.occ.set dyn (ms.occ.getD dyn [] ++ [q])).flatten.length =
            ms.occ.flatten.length + 1 := by
          rw [hperm.length_eq]; rfl
        refine ⟨by simp [h.lenQO], ?_, ?_, ?_, ?_, ?_, ?_⟩
        · simp only [hlen, List.length_set, List.length_append, List.length_cons,
            List.length_nil, h.csum]
          omega
        · exact hperm.nodup_iff.mpr (List.nodup_cons.mpr ⟨hqf, h.anodup⟩)
        · intro v hv
          rcases List.mem_cons.mp (hperm.mem_iff.mp hv) with h1 | h1
          · exact h1 ▸ hqw
          · exact h.asub v h1
        · intro v
          rw [hperm.mem_iff, List.mem_cons]
          constructor
          · rintro (rfl | h1)
            · exact Or.inr (mem_set_self _ dyn (some v) hlt)
            · rcases (h.cover v).mp h1 with h2 | h2
              · exact Or.inl h2
              · exact Or.inr (mem_set_of_ne _ dyn (some q) (some v) none h2
                  (by rw [hcell]; simp))
          · rintro (h1 | h1)
            · exact Or.inr ((h.cover v).mpr (Or.inl h1))
            · rcases List.mem_or_eq_of_mem_set h1 with h2 | h2
              · exact Or.inr ((h.cover v).mpr (Or.inr h2))
              · exact Or.inl (Option.some.inj h2)
        · intro v hv hmem
          rcases List.mem_or_eq_of_mem_set hmem with h2 | h2
          · exact h.resNM v hv h2
          · exact hqo (Option.some.inj h2 ▸ hv)
        · intro i hi
          rw [List.length_set] at hi
          by_cases hidyn : i = dyn
          · subst hidyn
            rw [getD_set_self _ i _ [] hlt2, getD_set_self _ i _ none hlt]
            refine ⟨by simp, ?_, ?_⟩
            · intro v hv
              rw [List.getLastD_concat]
              exact Option.some.inj hv
            · intro hnone
              exact absurd hnone (by simp)
          · have hne : dyn ≠ i := fun he => hidyn he.symm
            rw [getD_set_ne _ _ _ _ _ hne, getD_set_ne _ _ _ _ _ hne]
            exact h.slotLast i hi
    | none =>
        rw [manage_eq_of_full rs ts ms q hres hff]
        have hflat : (ms.occ ++ [[q]]).flatten = ms.occ.flatten ++ [q] := by simp
        refine ⟨by simp [h.lenQO], ?_, ?_, ?_, ?_, ?_, ?_⟩
        · simp only [hflat, List.length_append, List.length_cons, List.length_nil,
            h.csum]
          omega
        · rw [hflat]
          exact (List.perm_append_singleton q _).nodup_iff.mpr
            (List.nodup_cons.mpr ⟨hqf, h.anodup⟩)
        · intro v hv
          rw [hflat] at hv
          rcases List.mem_append.mp hv with h1 | h1
          · exact h.asub v h1
          · exact (by simpa using h1 : v = q) ▸ hqw
        · intro v
          rw [hflat, List.mem_append, List.mem_append]
          constructor
          · rintro (h1 | h1)
            · rcases (h.cover v).mp h1 with h2 | h2
              · exact Or.inl h2
              · exact Or.inr (Or.inl h2)
            · exact Or.inr (Or.inr (by simpa using h1))
          · rintro (h1 | h1 | h1)
            · exact Or.inl ((h.cover v).mpr (Or.inl h1))
            · exact Or.inl ((h.cover v).mpr (Or.inr h1))
            · exact Or.inr (by simpa using h1)
        · intro v hv hmem
          rcases List.mem_append.mp hmem with h1 | h1
          · exact h.resNM v hv h1
          · exact hqo ((by simpa using h1 : v = q) ▸ hv)
        · intro i hi
          simp only [List.length_append, List.length_cons, List.length_nil] at hi
          by_cases hilt : i < ms.qreg.length
          · rw [List.getD_append _ _ _ _ (h.lenQO ▸ hilt), List.getD_append _ _ _ _ hilt]
            exact h.slotLast i hilt
          · have hieq : i = ms.qreg.length := by omega
            subst hieq
            rw [show ms.qreg.length = ms.occ.length from h.lenQO]
            rw [getD_concat_length ms.occ [q] []]
            rw [show ms.occ.length = ms.qreg.length from h.lenQO.symm]
            rw [getD_concat_length ms.qreg (some q) none]
            refine ⟨by simp, ?_, ?_⟩
            · intro v hv
              simpa using Option.some.inj hv
            · intro hnone
              exact absurd hnone (by simp)

end DQC

namespace DQC

/-- The activation loop preserves the register invariant, keeps every
previously resident wire resident, makes every activated wire resident, and
never shrinks the register. -/
lemma activate_MInv (rs ts : Nat → Nat) (w : Nat) (order : List Nat) :
    ∀ (qs : List Nat) (ms : MState), MInv w order ms →
      (∀ x ∈ qs, x ∉ order ∧ x < w) →
      MInv w order (activate rs ts ms qs) ∧
      (∀ v, some v ∈ ms.qreg → some v ∈ (activate rs ts ms qs).qreg) ∧
      (∀ x ∈ qs, some x ∈ (activate rs ts ms qs).qreg) ∧
      ms.qreg.length ≤ (activate rs ts ms qs).qreg.length := by
  intro qs
  induction qs with
  | nil =>
      intro ms h _
      exact ⟨h, fun v hv => hv, by simp, Nat.le_refl _⟩
  | cons x xs ih =>
      intro ms h hqs
      have hact : activate rs ts ms (x :: xs) = activate rs ts (manage rs ts ms x) xs := rfl
      obtain ⟨hx1, hx2⟩ := hqs x (by simp)
      obtain ⟨ih1, ih2, ih3, ih4⟩ := ih (manage rs ts ms x)
        (manage_MInv rs ts w order ms x h hx1 hx2)
        (fun y hy => hqs y (by simp [hy]))
      rw [hact]
      refine ⟨ih1, ?_, ?_, ?_⟩
      · intro v hv
        exact ih2 v (manage_resident_mono rs ts ms x v hv)
      · intro y hy
        rcases List.mem_cons.mp hy with h1 | h1
        · exact h1 ▸ ih2 x (manage_resident_self rs ts ms x)
        · exact ih3 y h1
      · exact Nat.le_trans (manage_length_mono rs ts ms x) ih4

/-- Under the register invariant, a wire is resident in at most one cell. -/
lemma MInv_unique_resident (w : Nat) (order : List Nat) (ms : MState)
    (h : MInv w order ms) :
    ∀ i j v, i < ms.qreg.length → j < ms.qreg.length →
      ms.qreg.getD i none = some v → ms.qreg.getD j none = some v → i = j := by
  intro i j v hi hj hvi hvj
  by_contra hij
  obtain ⟨hne_i, hlast_i, _⟩ := h.slotLast i hi
  obtain ⟨hne_j, hlast_j, _⟩ := h.slotLast j hj
  have hmem_i : v ∈ ms.occ.getD i [] := by
    rw [← hlast_i v hvi]
    exact getLastD_mem _ 0 hne_i
  have hmem_j : v ∈ ms.occ.getD j [] := by
    rw [← hlast_j v hvj]
    exact getLastD_mem _ 0 hne_j
  exact flatten_nodup_cells_disjoint ms.occ h.anodup i j hij v hmem_i hmem_j

/-- `recycle` on a resident wire blanks the first (hence, under the
invariant, the only) cell hosting it. -/
lemma recycle_spec (qreg : List (Option Nat)) (q : Nat)
    (hres : some q ∈ qreg) :
    ∃ idx, idx < qreg.length ∧ qreg.getD idx none = some q ∧
      recycle qreg q = qreg.set idx none := by
  have hex : ∃ x, x ∈ qreg ∧ decide (x = some q) = true := ⟨some q, hres, by simp⟩
  obtain ⟨x, hx, hpx⟩ := hex
  have : qreg.findIdx? (fun y => decide (y = some q)) =
      some (qreg.findIdx (fun y => decide (y = some q))) :=
    List.findIdx?_eq_some_of_exists ⟨x, hx, hpx⟩
  obtain ⟨hlt, hp, _⟩ := List.findIdx?_eq_some_iff_getElem.mp this
  refine ⟨_, hlt, ?_, ?_⟩
  · rw [List.getD_eq_getElem _ _ hlt]
    simpa using hp
  · rw [recycle, this]

end DQC


namespace DQC

/-- One measurement event preserves the planner invariant: the measured
wire must be unmeasured, lie in its own causal cone, and have its cone
within the circuit's wires.  Also records the order/unmeasured updates and
that the register is nonempty and never shrinks. -/
lemma measureQ_Inv (cones : Nat → Finset Nat) (rs ts : Nat → Nat) (w : Nat)
    (s : PState) (q : Nat) (h : Inv cones w s) (hq : q ∈ s.unmeasured)
    (hself : q ∈ cones q) (hsub : cones q ⊆ Finset.range w) :
    Inv cones w (measureQ cones rs ts s q) ∧
    (measureQ cones rs ts s q).order = s.order ++ [q] ∧
    (measureQ cones rs ts s q).unmeasured = s.unmeasured.erase q ∧
    s.ms.qreg.length ≤ (measureQ cones rs ts s q).ms.qreg.length ∧
    1 ≤ (measureQ cones rs ts s q).ms.qreg.length := by
  have hndp : (s.order ++ s.unmeasured).Nodup :=
    h.perm.nodup_iff.mpr (List.nodup_range w)
  have hqo : q ∉ s.order :=
    fun ho => (List.disjoint_of_nodup_append hndp) ho hq
  have hacts_ok : ∀ x ∈ sortedCone (cones q \ s.order.toFinset),
      x ∉ s.order ∧ x < w := by
    intro x hx
    rw [sortedCone, Finset.mem_sort, Finset.mem_sdiff, List.mem_toFinset] at hx
    exact ⟨hx.2, Finset.mem_range.mp (hsub hx.1)⟩
  obtain ⟨hM1, hM2, hM3, hM4⟩ :=
    activate_MInv rs ts w s.order (sortedCone (cones q \ s.order.toFinset))
      s.ms h.minv hacts_ok
  set ms1 := activate rs ts s.ms (sortedCone (cones q \ s.order.toFinset))
    with hms1
  have hqres : some q ∈ ms1.qreg := by
    refine hM3 q ?_
    rw [sortedCone, Finset.mem_sort, Finset.mem_sdiff, List.mem_toFinset]
    exact ⟨hself, hqo⟩
  obtain ⟨idx, hidx, hcell, hrec⟩ := recycle_spec ms1.qreg q hqres
  have hmeas : measureQ cones rs ts s q =
      { order := s.order ++ [q], unmeasured := s.unmeasured.erase q,
        mcone := s.mcone ∪ cones q,
        ms := { qreg := ms1.qreg.set idx none, occ := ms1.occ,
                edges := ms1.edges } } := by
    rw [measureQ]
    simp only [← hms1, hrec]
  rw [hmeas]
  have hnotset : ∀ v, some v ∈ ms1.qreg.set idx none → some v ∈ ms1.qreg ∧
      ∃ k, k < ms1.qreg.length ∧ k ≠ idx ∧ ms1.qreg.getD k none = some v := by
    intro v hmem
    obtain ⟨k, hk, hkv⟩ := (mem_iff_getD _ (some v) none).mp hmem
    rw [List.length_set] at hk
    have hkne : k ≠ idx := by
      intro he
      rw [he, getD_set_self _ idx none none hidx] at hkv
      exact Option.noConfusion hkv
    rw [getD_set_ne _ idx k none none (fun he => hkne he.symm)] at hkv
    exact ⟨(mem_iff_getD _ _ none).mpr ⟨k, hk, hkv⟩, k, hk, hkne, hkv⟩
  refine ⟨⟨?_, ?_, ?_, ?_, ?_, ?_, ?_, ?_, ?_⟩, rfl, rfl, ?_, ?_⟩
  · show ((s.order ++ [q]) ++ s.unmeasured.erase q).Perm (List.range w)
    rw [List.append_assoc]
    exact (((List.perm_cons_erase hq).symm).append_left s.order).trans h.perm
  · exact Finset.union_subset h.mconeSub hsub
  · simpa using hM1.lenQO
  · simpa using hM1.csum
  · exact hM1.anodup
  · exact hM1.asub
  · intro v
    constructor
    · intro hv
      rcases (hM1.cover v).mp hv with h1 | h1
      · exact Or.inl (List.mem_append_left _ h1)
      · by_cases hvq : v = q
        · exact Or.inl (List.mem_append_right _ (by simp [hvq]))
        · refine Or.inr (mem_set_of_ne _ idx none (some v) none h1 ?_)
          rw [hcell]
          intro he
          exact hvq (Option.some.inj he).symm
    · intro hv
      rcases hv with h1 | h1
      · rcases List.mem_append.mp h1 with h2 | h2
        · exact (hM1.cover v).mpr (Or.inl h2)
        · have hvq : v = q := by simpa using h2
          exact (hM1.cover v).mpr (Or.inr (hvq ▸ hqres))
      · exact (hM1.cover v).mpr (Or.inr (hnotset v h1).1)
  · intro v hv hmem
    rcases List.mem_append.mp hv with h1 | h1
    · exact hM1.resNM v h1 (hnotset v hmem).1
    · have hvq : v = q := by simpa using h1
      subst hvq
      obtain ⟨_, k, hk, hkne, hkv⟩ := hnotset v hmem
      exact hkne (MInv_unique_resident w s.order ms1 hM1 k idx v hk hidx hkv hcell)
  · intro i hi
    rw [List.length_set] at hi
    by_cases hieq : i = idx
    · subst hieq
      obtain ⟨ha, hb, _⟩ := hM1.slotLast i hidx
      refine ⟨ha, ?_, ?_⟩
      · intro v hv
        rw [getD_set_self _ i none none hidx] at hv
        exact Option.noConfusion hv
      · intro _
        rw [hb q hcell]
        exact List.mem_append_right _ (by simp)
    · have hne : idx ≠ i := fun he => hieq he.symm
      rw [getD_set_ne _ _ _ _ _ hne]
      obtain ⟨ha, hb, hc⟩ := hM1.slotLast i hi
      exact ⟨ha, hb, fun hn => List.mem_append_left _ (hc hn)⟩
  · simpa using hM4
  · have : 0 < ms1.qreg.length := Nat.lt_of_le_of_lt (Nat.zero_le idx) hidx
    simpa using this

end DQC

namespace DQC

/-- One iteration of the greedy `while` loop preserves the invariant and
measures exactly one qubit (the selection always succeeds on a nonempty
unmeasured set because every union size is bounded by `w`). -/
lemma greedyStep_Inv (cones : Nat → Finset Nat) (rs ts : Nat → Nat) (w : Nat)
    (s : PState) (h : Inv cones w s)
    (hself : ∀ x, x < w → x ∈ cones x)
    (hsub : ∀ x, x < w → cones x ⊆ Finset.range w)
    (hne : s.unmeasured ≠ []) :
    Inv cones w (greedyStep cones rs ts w s) ∧
    (greedyStep cones rs ts w s).unmeasured.length + 1 = s.unmeasured.length ∧
    s.ms.qreg.length ≤ (greedyStep cones rs ts w s).ms.qreg.length := by
  have hbound : ∀ x ∈ s.unmeasured, (s.mcone ∪ cones x).card ≤ w := by
    intro x hx
    have hxw : x < w :=
      List.mem_range.mp (h.perm.mem_iff.mp (List.mem_append_right _ hx))
    have hsubU : s.mcone ∪ cones x ⊆ Finset.range w :=
      Finset.union_subset h.mconeSub (hsub x hxw)
    simpa using Finset.card_le_card hsubU
  rcases selectNext_spec cones s.mcone s.unmeasured none w with ⟨_, hall⟩ |
    ⟨qq, L₁, L₂, hL, heq, _, _, _⟩
  · obtain ⟨x, hx⟩ : ∃ x, x ∈ s.unmeasured := by
      cases hU : s.unmeasured with
      | nil => exact absurd hU hne
      | cons a l => exact ⟨a, by simp⟩
    exact absurd (hbound x hx) (Nat.not_le_of_lt (hall x hx))
  · have hqmem : qq ∈ s.unmeasured := by
      rw [hL]; exact List.mem_append_right _ (List.mem_cons_self _ _)
    have hqw : qq < w :=
      List.mem_range.mp (h.perm.mem_iff.mp (List.mem_append_right _ hqmem))
    have hsel : (selectNext cones w s.mcone s.unmeasured).1 = some qq := by
      rw [selectNext, heq]
    have hstep : greedyStep cones rs ts w s = measureQ cones rs ts s qq := by
      simp only [greedyStep, hsel]
    obtain ⟨hI, _, hunm, hmono, _⟩ :=
      measureQ_Inv cones rs ts w s qq h hqmem (hself qq hqw) (hsub qq hqw)
    rw [hstep]
    refine ⟨hI, ?_, hmono⟩
    rw [hunm, List.length_erase_of_mem hqmem]
    have : 0 < s.unmeasured.length := List.length_pos.mpr hne
    omega

/-- Iterating the greedy loop `k` times (for `k` at most the number of
unmeasured qubits) preserves the invariant and measures `k` qubits. -/
lemma iter_Inv (cones : Nat → Finset Nat) (rs ts : Nat → Nat) (w : Nat)
    (hself : ∀ x, x < w → x ∈ cones x)
    (hsub : ∀ x, x < w → cones x ⊆ Finset.range w) :
    ∀ (k : Nat) (s : PState), Inv cones w s → k ≤ s.unmeasured.length →
      Inv cones w (iter (greedyStep cones rs ts w) k s) ∧
      (iter (greedyStep cones rs ts w) k s).unmeasured.length + k =
        s.unmeasured.length ∧
      s.ms.qreg.length ≤ (iter (greedyStep cones rs ts w) k s).ms.qreg.length := by
  intro k
  induction k with
  | zero => intro s h _; exact ⟨h, rfl, Nat.le_refl _⟩
  | succ n ih =>
      intro s h hk
      have hne : s.unmeasured ≠ [] := by
        intro he
        rw [he] at hk
        simp at hk
      obtain ⟨h1, h2, h3⟩ := greedyStep_Inv cones rs ts w s h hself hsub hne
      obtain ⟨g1, g2, g3⟩ := ih (greedyStep cones rs ts w s) h1 (by omega)
      rw [show iter (greedyStep cones rs ts w) (n + 1) s =
        iter (greedyStep cones rs ts w) n (greedyStep cones rs ts w s) from rfl]
      exact ⟨g1, by omega, Nat.le_trans h3 g3⟩

/-- The outcome of a full greedy run: the measurement order and the list of
all allocations are permutations of the wires, the register size and edge
count add up to `w`, and the register is nonempty. -/
lemma greedyRun_final (cones : Nat → Finset Nat) (rs ts : Nat → Nat)
    (w fq : Nat) (hw : 1 ≤ w) (hfq : fq < w)
    (hself : ∀ x, x < w → x ∈ cones x)
    (hsub : ∀ x, x < w → cones x ⊆ Finset.range w) :
    (greedyRun cones rs ts w fq).order.Perm (List.range w) ∧
    (greedyRun cones rs ts w fq).ms.occ.flatten.Perm (List.range w) ∧
    (greedyRun cones rs ts w fq).ms.qreg.length +
      (greedyRun cones rs ts w fq).ms.edges.length = w ∧
    1 ≤ (greedyRun cones rs ts w fq).ms.qreg.length := by
  have hinit : Inv cones w (initState w) := by
    refine ⟨by simp [initState], by simp [initState], ?_⟩
    refine ⟨rfl, rfl, by simp [initState], by simp [initState], ?_, ?_, ?_⟩
    · intro v; simp [initState]
    · intro v hv; simp [initState] at hv
    · intro i hi; simp [initState] at hi
  have hfqmem : fq ∈ (initState w).unmeasured := by
    simp [initState, List.mem_range, hfq]
  obtain ⟨h0, _, hunm0, _, hpos0⟩ :=
    measureQ_Inv cones rs ts w (initState w) fq hinit hfqmem
      (hself fq hfq) (hsub fq hfq)
  have hlen0 : (measureQ cones rs ts (initState w) fq).unmeasured.length = w - 1 := by
    rw [hunm0, List.length_erase_of_mem hfqmem]
    simp [initState]
  obtain ⟨hIf, hunf, hmonf⟩ :=
    iter_Inv cones rs ts w hself hsub (w - 1)
      (measureQ cones rs ts (initState w) fq) h0 (by rw [hlen0])
  have hrun : greedyRun cones rs ts w fq =
      iter (greedyStep cones rs ts w) (w - 1)
        (measureQ cones rs ts (initState w) fq) := rfl
  rw [hrun]
  set sf := iter (greedyStep cones rs ts w) (w - 1)
    (measureQ cones rs ts (initState w) fq) with hsf
  have hunm_nil : sf.unmeasured = [] := by
    rw [hlen0] at hunf
    exact List.length_eq_zero.mp (by omega)
  have hordperm : sf.order.Perm (List.range w) := by
    have hp := hIf.perm
    rw [hunm_nil, List.append_nil] at hp
    exact hp
  have hflat : sf.ms.occ.flatten.Perm (List.range w) := by
    rw [List.perm_ext_iff_of_nodup hIf.minv.anodup (List.nodup_range w)]
    intro a
    rw [List.mem_range]
    constructor
    · exact hIf.minv.asub a
    · intro ha
      have : a ∈ sf.order := hordperm.mem_iff.mpr (List.mem_range.mpr ha)
      exact (hIf.minv.cover a).mpr (Or.inl this)
  have hflatlen : sf.ms.occ.flatten.length = w := by
    rw [hflat.length_eq, List.length_range]
  have hcsum := hIf.minv.csum
  exact ⟨hordperm, hflat, by omega, by omega⟩

/-- C1: for every width `w ≥ 1`, causal-cone family with `q ∈ cone(q)` (the
cones drawn from the wires of the circuit), and first measured qubit, the
greedy plan construction ends with a register of size exactly
`w - #(reuse edges)`, and this final width lies between 1 and `w`. -/
theorem C1_greedy_final_width (cones : Nat → Finset Nat) (rs ts : Nat → Nat)
    (w fq : Nat) (hw : 1 ≤ w) (hfq : fq < w)
    (hself : ∀ x, x < w → x ∈ cones x)
    (hsub : ∀ x, x < w → cones x ⊆ Finset.range w) :
    (greedyRun cones rs ts w fq).ms.qreg.length =
      w - (greedyRun cones rs ts w fq).ms.edges.length ∧
    1 ≤ (greedyRun cones rs ts w fq).ms.qreg.length ∧
    (greedyRun cones rs ts w fq).ms.qreg.length ≤ w := by
  obtain ⟨_, _, hsum, hpos⟩ := greedyRun_final cones rs ts w fq hw hfq hself hsub
  omega

/-- C1 (witness). -/
theorem C1_witness :
    1 ≤ 6 ∧ 1 < 6 ∧
    (greedyRun bvCones id id 6 1).ms.qreg.length =
      6 - (greedyRun bvCones id id 6 1).ms.edges.length ∧
    1 ≤ (greedyRun bvCones id id 6 1).ms.qreg.length :=
  ⟨by decide, by decide,
   (C1_greedy_final_width bvCones id id 6 1 (by decide) (by decide)
      (by decide) (by decide)).1,
   (C1_greedy_final_width bvCones id id 6 1 (by decide) (by decide)
      (by decide) (by decide)).2.1⟩

/-- C9: for every width `w ≥ 1` and causal-cone family with `q ∈ cone(q)`,
the greedy run produces a measurement order that is a permutation of the
wires `0..w-1` (each wire measured exactly once), and every wire is
allocated into the register exactly once over the whole run (the
concatenated occupation histories are a permutation of the wires). -/
theorem C9_order_is_permutation (cones : Nat → Finset Nat) (rs ts : Nat → Nat)
    (w fq : Nat) (hw : 1 ≤ w) (hfq : fq < w)
    (hself : ∀ x, x < w → x ∈ cones x)
    (hsub : ∀ x, x < w → cones x ⊆ Finset.range w) :
    (greedyRun cones rs ts w fq).order.Perm (List.range w) ∧
    (greedyRun cones rs ts w fq).ms.occ.flatten.Perm (List.range w) :=
  ⟨(greedyRun_final cones rs ts w fq hw hfq hself hsub).1,
   (greedyRun_final cones rs ts w fq hw hfq hself hsub).2.1⟩

/-- C9 (witness). -/
theorem C9_witness :
    1 ≤ 6 ∧ 1 < 6 ∧
    (greedyRun bvCones id id 6 1).order.Perm (List.range 6) ∧
    (greedyRun bvCones id id 6 1).ms.occ.flatten.Perm (List.range 6) :=
  ⟨by decide, by decide,
   (C9_order_is_permutation bvCones id id 6 1 (by decide) (by decide)
      (by decide) (by decide)).1,
   (C9_order_is_permutation bvCones id id 6 1 (by decide) (by decide)
      (by decide) (by decide)).2⟩

end DQC
